import Mathlib

/-!
# Verification of the local HLS player server (`src/server.js`)

This file gives a shallow embedding, in Lean 4, of the parts of
`src/server.js` that the specification talks about:

* the opaque-id codec (`Buffer.from(rel).toString("base64url")` /
  `Buffer.from(id, "base64url").toString("utf8")`), embedded at the byte
  level (a Node `Buffer` is a byte sequence, modelled as `List Nat` with
  every entry `< 256`);
* path resolution and containment (`safeAbsFromRel`, `absFromId`,
  `path.resolve`, `path.join`, the `startsWith` containment check),
  embedded over POSIX-style `/`-separated paths as `List Char`;
* the catalog listing (`GET /api/videos`);
* the transcode orchestrator (`ensureHls`, `hlsJobs`, `runningHls`) and
  the thumbnail generator (`runningThumb`), embedded as an explicit
  transition system over a server state, with one event per asynchronous
  callback of the source (request arrival, probe completion, manifest
  appearance on disk, the 200 ms poll tick, subprocess close, subprocess
  spawn error).

Modelling conventions, fixed once here:

* Node's event loop runs each synchronous block (and the microtasks it
  queues) to completion before any other callback runs, so every event of
  the transition system is the complete synchronous prefix of one source
  callback.  In particular the busy / cache-hit paths of `ensureHls`
  resolve the job promise synchronously and `hlsJobs.set` at line 281 is
  followed by the `finally` deletion before any other request can run,
  so those paths leave the job registry observably unchanged.
* Subprocess termination follows Node's documented semantics: a process
  that spawned fires `close` once with its exit code; a process whose
  spawn failed fires `error` once and then fires `close` as well, so both
  handlers run for a spawn failure and both decrement the counter.
* Node's base64 / base64url decoder never throws on string input; it
  ignores every character outside the base64(url) alphabets and drops a
  trailing group of 6 bits that does not fill a byte.  The `try/catch` in
  `idToRelPath` is therefore modelled as the plain (total) decode.
* `String.prototype.toLowerCase` is modelled on the ASCII range
  (`Char.toLower`), which is the range the claims exercise.
-/

namespace HlsPlayer

/-! ## Opaque id codec (server.js lines 69-73 and 79-85)

`buildIndexIfNeeded` computes `id = Buffer.from(rel).toString("base64url")`
and `idToRelPath` computes `Buffer.from(id, "base64url").toString("utf8")`.
We embed both at the byte level: `b64encode` maps the UTF-8 bytes of the
relative path to the id's characters, `b64decode` maps the id's characters
back to bytes. -/

/-- The value of one base64url alphabet character (6 bits).  Following
Node's lenient decoder we also accept the two standard-base64 characters
`+` and `/`; every other character has no value and is skipped. -/
def b64val (c : Char) : Option Nat :=
  if 'A' ≤ c ∧ c ≤ 'Z' then some (c.toNat - 65)
  else if 'a' ≤ c ∧ c ≤ 'z' then some (c.toNat - 97 + 26)
  else if '0' ≤ c ∧ c ≤ '9' then some (c.toNat - 48 + 52)
  else if c = '-' ∨ c = '+' then some 62
  else if c = '_' ∨ c = '/' then some 63
  else none

/-- The base64url character for a 6-bit value. -/
def b64char (v : Nat) : Char :=
  if v < 26 then Char.ofNat (65 + v)
  else if v < 52 then Char.ofNat (97 + (v - 26))
  else if v < 62 then Char.ofNat (48 + (v - 52))
  else if v = 62 then '-'
  else '_'

/-- Base64url encoding of a byte sequence, without padding, exactly as
`Buffer.prototype.toString("base64url")` produces it: 3 bytes become
4 characters, a 2-byte remainder becomes 3 characters, a 1-byte remainder
becomes 2 characters. -/
def b64encode : List Nat → List Char
  | [] => []
  | [b1] => [b64char (b1 / 4), b64char (b1 % 4 * 16)]
  | [b1, b2] =>
      [b64char (b1 / 4), b64char (b1 % 4 * 16 + b2 / 16), b64char (b2 % 16 * 4)]
  | b1 :: b2 :: b3 :: rest =>
      b64char (b1 / 4) :: b64char (b1 % 4 * 16 + b2 / 16) ::
      b64char (b2 % 16 * 4 + b3 / 64) :: b64char (b3 % 64) :: b64encode rest

/-- Decoding of a sequence of 6-bit values into bytes: 4 values give
3 bytes, 3 values give 2 bytes, 2 values give 1 byte, and a lone trailing
value (6 bits, less than a byte) is dropped, as Node does. -/
def b64decodeVals : List Nat → List Nat
  | [] => []
  | [_] => []
  | [v1, v2] => [v1 * 4 + v2 / 16]
  | [v1, v2, v3] => [v1 * 4 + v2 / 16, v2 % 16 * 16 + v3 / 4]
  | v1 :: v2 :: v3 :: v4 :: rest =>
      (v1 * 4 + v2 / 16) :: (v2 % 16 * 16 + v3 / 4) :: (v3 % 4 * 64 + v4) ::
      b64decodeVals rest

/-- Node-style lenient base64url decoding of a character sequence:
characters outside the alphabet are ignored, the rest is decoded in
groups.  This never fails. -/
def b64decode (cs : List Char) : List Nat :=
  b64decodeVals (cs.filterMap b64val)

/-- Embedding of `idToRelPath` (server.js lines 79-85): the body
`Buffer.from(id, "base64url").toString("utf8")` never throws for a string
argument, so the `catch { return null }` branch is unreachable and the
function always returns the (lenient) decode.  We return the decoded
bytes; `toString("utf8")` never throws either (invalid sequences become
U+FFFD). -/
def idToRelPath (id : String) : Option (List Nat) :=
  some (b64decode id.data)

/-- The id guard of `GET /api/video/:id` (server.js lines 106-107):
`if (!rel) return res.status(400)...` — JavaScript falsiness rejects both
`null` and the empty string. -/
def videoIdRejected (id : String) : Bool :=
  match idToRelPath id with
  | none => true
  | some bs => bs.isEmpty

/-- Every base64url character decodes back to its 6-bit value. -/
theorem b64val_b64char : ∀ v : Fin 64, b64val (b64char v.val) = some v.val := by
  decide

/-- Characters produced by `b64char` are kept (with their value) by the
lenient decoder's alphabet filter. -/
theorem filterMap_b64 (v : Nat) (hv : v < 64) (cs : List Char) :
    List.filterMap b64val (b64char v :: cs) = v :: List.filterMap b64val cs := by
  have h := b64val_b64char ⟨v, hv⟩
  simp only [List.filterMap_cons, h]

/-- Byte-level round trip of the codec, by induction over the 3-byte
groups of the encoder. -/
theorem b64_roundtrip : ∀ bs : List Nat, (∀ b ∈ bs, b < 256) →
    b64decode (b64encode bs) = bs
  | [], _ => rfl
  | [b1], h => by
      have h1 : b1 < 256 := h b1 (by simp)
      unfold b64decode b64encode
      rw [filterMap_b64 _ (by omega), filterMap_b64 _ (by omega)]
      simp only [List.filterMap_nil, b64decodeVals, List.cons.injEq, and_true]
      omega
  | [b1, b2], h => by
      have h1 : b1 < 256 := h b1 (by simp)
      have h2 : b2 < 256 := h b2 (by simp)
      unfold b64decode b64encode
      rw [filterMap_b64 _ (by omega), filterMap_b64 _ (by omega),
        filterMap_b64 _ (by omega)]
      simp only [List.filterMap_nil, b64decodeVals, List.cons.injEq, and_true]
      omega
  | b1 :: b2 :: b3 :: rest, h => by
      have h1 : b1 < 256 := h b1 (by simp)
      have h2 : b2 < 256 := h b2 (by simp)
      have h3 : b3 < 256 := h b3 (by simp)
      have ih := b64_roundtrip rest (fun b hb => h b (by simp [hb]))
      unfold b64decode at ih
      unfold b64decode b64encode
      rw [filterMap_b64 _ (by omega), filterMap_b64 _ (by omega),
        filterMap_b64 _ (by omega), filterMap_b64 _ (by omega)]
      simp only [b64decodeVals, ih, List.cons.injEq]
      refine ⟨by omega, by omega, by omega, trivial⟩

/-! ## POSIX path resolution and containment (server.js lines 87-92,
409-415, 338-358)

`path.resolve(base, p)` with an absolute, normalized `base` either
normalizes `p` (when `p` is absolute) or normalizes `base + "/" + p`;
normalization drops empty and `.` segments and lets `..` pop the previous
segment, never above the root.  `path.join(a, b, c)` joins with `/` and
normalizes the result the same way.  Paths are `List Char`. -/

/-- Split a character sequence on a separator character. -/
def splitOnChar (sep : Char) : List Char → List (List Char)
  | [] => [[]]
  | c :: t =>
      let r := splitOnChar sep t
      if c = sep then [] :: r
      else
        match r with
        | [] => [[c]]
        | h :: t2 => (c :: h) :: t2

/-- One step of absolute-path normalization: skip empty and `.` segments,
let `..` pop the last kept segment (staying at the root when there is
none), keep everything else. -/
def normStep (acc : List (List Char)) (seg : List Char) : List (List Char) :=
  if seg = [] ∨ seg = ['.'] then acc
  else if seg = ['.', '.'] then acc.dropLast
  else acc ++ [seg]

/-- Normalize the segment list of an absolute path. -/
def normSegsAbs (segs : List (List Char)) : List (List Char) :=
  segs.foldl normStep []

/-- Render normalized absolute segments back to a path string. -/
def renderAbs (segs : List (List Char)) : List Char :=
  if segs = [] then ['/'] else segs.foldl (fun a s => a ++ '/' :: s) []

/-- Model of `path.resolve(base, p)` for an absolute normalized `base`. -/
def pathResolve (base p : List Char) : List Char :=
  match p with
  | '/' :: _ => renderAbs (normSegsAbs (splitOnChar '/' p))
  | _ => renderAbs (normSegsAbs (splitOnChar '/' (base ++ '/' :: p)))

/-- Model of `path.join(base, p₁, ..., pₙ)` for an absolute `base`: concatenate
with `/` and normalize. -/
def pathJoin (base : List Char) (parts : List (List Char)) : List Char :=
  renderAbs (normSegsAbs (splitOnChar '/'
    (parts.foldl (fun a s => a ++ '/' :: s) base)))

/-- An absolute path lies within (at or below) a root directory. -/
def withinRoot (root p : List Char) : Bool :=
  p = root ∨ (root ++ ['/']).isPrefixOf p

/-- Embedding of `safeAbsFromRel` (server.js lines 87-92): backslashes are replaced by
slashes, the relative path is resolved against `VIDEO_ROOT`, and the
result is accepted iff `abs.startsWith(VIDEO_ROOT)` — a plain string
prefix test, with no separator appended to the root. -/
def safeAbsFromRel (root rel : List Char) : Option (List Char) :=
  let safeRel := rel.map fun c => if c = '\\' then '/' else c
  let abs := pathResolve root safeRel
  if root.isPrefixOf abs then some abs else none

/-- The path logic of `absFromId` (server.js lines 409-415) after the id
has been decoded: same resolve and `startsWith` test as `safeAbsFromRel`,
followed by an existence check, parameterized by the file system. -/
def absFromIdRel (fsExists : List Char → Bool) (root rel : List Char) :
    Option (List Char) :=
  let abs := pathResolve root (rel.map fun c => if c = '\\' then '/' else c)
  if root.isPrefixOf abs then (if fsExists abs then some abs else none)
  else none

/-- The segment endpoint `GET /api/hls/:id/:seg` (server.js lines
338-358): the only filter is `seg.endsWith(".ts")`; if it passes, the file
streamed is exactly `path.join(CACHE_ROOT, id, seg)` (provided it exists —
existence only delays, so we return the path that would be served). -/
def segServedPath (cacheRoot id seg : List Char) : Option (List Char) :=
  if (['.', 't', 's'] : List Char).isSuffixOf seg then
    some (pathJoin cacheRoot [id, seg])
  else none

/-! ## Catalog listing and search (server.js lines 64-77 and 95-102) -/

/-- One entry of the index built by `buildIndexIfNeeded`. -/
structure VideoAsset where
  name : List Char
  relPath : List Char
deriving DecidableEq

/-- JavaScript `String.prototype.trim`'s whitespace, restricted to the
ASCII whitespace characters. -/
def isJsWs (c : Char) : Bool :=
  c = ' ' ∨ c = '\t' ∨ c = '\n' ∨ c = '\r'

/-- Model of `String.prototype.trim`. -/
def jsTrim (l : List Char) : List Char :=
  ((l.dropWhile isJsWs).reverse.dropWhile isJsWs).reverse

/-- Model of `String.prototype.toLowerCase`, on the ASCII range. -/
def jsLower (l : List Char) : List Char :=
  l.map Char.toLower

/-- Model of `String.prototype.includes`: contiguous substring test. -/
def jsIncludes (needle : List Char) : List Char → Bool
  | [] => needle.isEmpty
  | c :: t => needle.isPrefixOf (c :: t) || jsIncludes needle t

/-- The search predicate of `GET /api/videos` (server.js line 99): the
lowered query must occur in `name + " " + relPath`, lowercased. -/
def assetMatches (qt : List Char) (v : VideoAsset) : Bool :=
  jsIncludes qt (jsLower (v.name ++ ' ' :: v.relPath))

/-- Embedding of `GET /api/videos` (server.js lines 95-102): trim and lower the query;
an empty query returns the whole index, otherwise filter by
`assetMatches`; cap the result with `slice(0, 300)`. -/
def apiVideos (index : List VideoAsset) (q : List Char) : List VideoAsset :=
  (if (jsLower (jsTrim q)).isEmpty then index
   else index.filter (assetMatches (jsLower (jsTrim q)))).take 300

/-! ## The orchestrator as a transition system (server.js lines 152-284,
306-336, 418-491)

Request handling is single-threaded: each asynchronous callback of the
source runs its synchronous body (plus the microtasks it queues) to
completion before the next one.  We therefore model the server as a state
plus one transition per callback:

* `reqManifest id` — `GET /api/hls/:id/index.m3u8` reaches `ensureHls`:
  the synchronous prefix of the job promise's executor (registry lookup,
  cache check at line 166, gate check at line 171, `runningHls++`)
  together with `hlsJobs.set` at line 281.  On the cache-hit and busy
  paths the promise resolves synchronously and the `finally` at line 282
  deletes the entry again before any other callback can observe it, so
  those paths leave the state unchanged.
* `probeDone id` — the two awaited `probeCodec` calls of a registered job
  complete (they always resolve; line 299/300 maps every probe failure to
  `"none"`) and `ffmpeg` is spawned (line 236).
* `manifestAppears id` — the running encoder writes `index.m3u8`.
* `pollTick id` — the 200 ms `waitM3U8` interval (lines 246-252) of a
  live, not-yet-released job fires with the manifest present: `released`
  is set, the promise resolves `ready`, and the `finally` removes the
  registry entry.
* `procClose id code` — the `close` handler (lines 255-267) of an
  encoder process that spawned.
* `procError id` — the encoder's `error` handler (lines 269-273), fired
  when the spawn failed: `runningHls--` and, if the job is unreleased,
  the promise is rejected (settling it and removing the registry entry).
* `procErrClose` — the `close` event that Node fires after `error` for a
  spawn failure: the same close handler runs again, so `runningHls--` a
  second time; its resolve/reject calls are no-ops because the promise
  already settled at the `error` event, so the decrement is the only
  state effect.
* `reqThumb` / `thumbProbeDone` / `thumbClose` / `thumbError` /
  `thumbErrClose` — the corresponding phases of `GET /api/thumb/:id.jpg`
  (lines 418-491); like the encoder, a thumbnail spawn failure fires
  `error` (line 487, `runningThumb--`) and then `close` (line 477,
  `runningThumb--` again).

Each process fires `error` at most once and `close` exactly once; for a
spawn failure `error` precedes `close`.  The source's close and error
handlers decrement unconditionally, so a spawn failure decrements a
counter twice for its single increment. -/

/-- Capacity `MAX_HLS` (server.js line 21). -/
def maxHls : Int := 10000

/-- Capacity `MAX_THUMB` (server.js line 22). -/
def maxThumb : Int := 3

/-- A live encoder subprocess together with the `released` flag of the
job closure that spawned it (line 158). -/
structure EProc where
  id : String
  released : Bool
deriving DecidableEq

/-- The process-wide mutable state of the server. -/
structure SrvState where
  /-- The keys of the `hlsJobs` map (line 27): ids with a pending job. -/
  registry : List String
  /-- Jobs that passed the gate (`runningHls++`, line 174) but whose
  probes have not completed yet, so no encoder is spawned so far. -/
  prespawn : List String
  /-- Encoder subprocesses whose `error` event has not fired: processes
  that spawned, plus processes whose spawn failure is not yet reported.
  A process whose `error` fired is tracked only by `hlsErrored` while
  its trailing `close` is pending. -/
  procs : List EProc
  /-- Ids whose `cache/<id>/index.m3u8` exists on disk. -/
  manifest : List String
  /-- Counter `runningHls` (line 24). -/
  runningHls : Int
  /-- Counter `runningThumb` (line 25). -/
  runningThumb : Int
  /-- Thumbnail requests between `runningThumb++` (line 435) and the
  `ffmpeg` spawn (line 475), i.e. awaiting the duration probe. -/
  thumbPre : Nat
  /-- Thumbnail subprocesses whose `error` event has not fired. -/
  thumbProcs : Nat
  /-- Encoder processes whose spawn failed and whose `error` handler has
  already run (decrementing once and settling the job), awaiting the
  trailing `close` event that decrements again. -/
  hlsErrored : Nat
  /-- Thumbnail processes whose `error` handler has already run,
  awaiting the trailing `close` event. -/
  thumbErrored : Nat
deriving DecidableEq

/-- The state at server start. -/
def stInit : SrvState := ⟨[], [], [], [], 0, 0, 0, 0, 0, 0⟩

/-- What a settling job reports to its waiters. -/
inductive Outcome
  | success
  | failure
deriving DecidableEq

/-- What a request observes from its own handling step.  For manifest
requests, `busy` is sent as HTTP 202 (line 316), `ready` streams the
manifest, `attached` shares the pending job's promise, `started` created
a fresh job. -/
inductive ReqRes
  | attached
  | ready
  | busy
  | started
  | thumbNotFound
  | thumbCached
  | thumbBusy
  | thumbStarted
deriving DecidableEq

/-- Subprocess creations emitted by a step. -/
inductive Eff
  | spawnEncoder (id : String)
  | spawnThumb
deriving DecidableEq

/-- Result of one transition: successor state, spawned subprocesses,
the response classification for request events, and the outcome reported
to the job's waiters if the job settled during this step. -/
structure StepOut where
  state : SrvState
  effects : List Eff
  res : Option ReqRes
  settle : Option Outcome
deriving DecidableEq

/-- The events, one per asynchronous callback of the source. -/
inductive Ev
  | reqManifest (id : String)
  | probeDone (id : String)
  | manifestAppears (id : String)
  | pollTick (id : String)
  | procClose (id : String) (code : Int)
  | procError (id : String)
  | procErrClose
  | reqThumb (found cached : Bool)
  | thumbProbeDone
  | thumbClose (ok : Bool)
  | thumbError
  | thumbErrClose

/-- First live encoder subprocess with the given id. -/
def findProc (id : String) : List EProc → Option EProc
  | [] => none
  | p :: t => if p.id = id then some p else findProc id t

/-- Remove the first live encoder subprocess with the given id. -/
def removeProc (id : String) : List EProc → List EProc
  | [] => []
  | p :: t => if p.id = id then t else p :: removeProc id t

/-- Set the `released` flag of the first encoder subprocess with the
given id. -/
def setReleased (id : String) : List EProc → List EProc
  | [] => []
  | p :: t =>
      if p.id = id then { p with released := true } :: t
      else p :: setReleased id t

/-- The transition function, one case per source callback (translation
table in the section header). -/
def stepFull (s : SrvState) : Ev → StepOut
  | .reqManifest id =>
      if id ∈ s.registry then ⟨s, [], some .attached, none⟩
      else if id ∈ s.manifest then ⟨s, [], some .ready, none⟩
      else if maxHls ≤ s.runningHls then ⟨s, [], some .busy, none⟩
      else
        ⟨{ s with
            registry := id :: s.registry
            prespawn := id :: s.prespawn
            runningHls := s.runningHls + 1 }, [], some .started, none⟩
  | .probeDone id =>
      if id ∈ s.prespawn then
        ⟨{ s with
            prespawn := s.prespawn.erase id
            procs := ⟨id, false⟩ :: s.procs }, [.spawnEncoder id], none, none⟩
      else ⟨s, [], none, none⟩
  | .manifestAppears id =>
      if (findProc id s.procs).isSome ∧ id ∉ s.manifest then
        ⟨{ s with manifest := id :: s.manifest }, [], none, none⟩
      else ⟨s, [], none, none⟩
  | .pollTick id =>
      match findProc id s.procs with
      | some p =>
          if p.released = false ∧ id ∈ s.manifest then
            ⟨{ s with
                procs := setReleased id s.procs
                registry := s.registry.erase id }, [], none, some .success⟩
          else ⟨s, [], none, none⟩
      | none => ⟨s, [], none, none⟩
  | .procClose id code =>
      match findProc id s.procs with
      | some p =>
          let s1 := { s with
            procs := removeProc id s.procs
            runningHls := s.runningHls - 1 }
          if p.released then ⟨s1, [], none, none⟩
          else if id ∈ s.manifest then
            ⟨{ s1 with registry := s1.registry.erase id }, [], none,
              some .success⟩
          else if code = 0 then ⟨s1, [], none, none⟩
          else
            ⟨{ s1 with registry := s1.registry.erase id }, [], none,
              some .failure⟩
      | none => ⟨s, [], none, none⟩
  | .procError id =>
      match findProc id s.procs with
      | some p =>
          let s1 := { s with
            procs := removeProc id s.procs
            runningHls := s.runningHls - 1
            hlsErrored := s.hlsErrored + 1 }
          if p.released then ⟨s1, [], none, none⟩
          else
            ⟨{ s1 with registry := s1.registry.erase id }, [], none,
              some .failure⟩
      | none => ⟨s, [], none, none⟩
  | .procErrClose =>
      if 0 < s.hlsErrored then
        ⟨{ s with
            hlsErrored := s.hlsErrored - 1
            runningHls := s.runningHls - 1 }, [], none, none⟩
      else ⟨s, [], none, none⟩
  | .reqThumb found cached =>
      if found = false then ⟨s, [], some .thumbNotFound, none⟩
      else if cached then ⟨s, [], some .thumbCached, none⟩
      else if maxThumb ≤ s.runningThumb then ⟨s, [], some .thumbBusy, none⟩
      else
        ⟨{ s with
            runningThumb := s.runningThumb + 1
            thumbPre := s.thumbPre + 1 }, [], some .thumbStarted, none⟩
  | .thumbProbeDone =>
      if 0 < s.thumbPre then
        ⟨{ s with
            thumbPre := s.thumbPre - 1
            thumbProcs := s.thumbProcs + 1 }, [.spawnThumb], none, none⟩
      else ⟨s, [], none, none⟩
  | .thumbClose _ =>
      if 0 < s.thumbProcs then
        ⟨{ s with
            thumbProcs := s.thumbProcs - 1
            runningThumb := s.runningThumb - 1 }, [], none, none⟩
      else ⟨s, [], none, none⟩
  | .thumbError =>
      if 0 < s.thumbProcs then
        ⟨{ s with
            thumbProcs := s.thumbProcs - 1
            runningThumb := s.runningThumb - 1
            thumbErrored := s.thumbErrored + 1 }, [], none, none⟩
      else ⟨s, [], none, none⟩
  | .thumbErrClose =>
      if 0 < s.thumbErrored then
        ⟨{ s with
            thumbErrored := s.thumbErrored - 1
            runningThumb := s.runningThumb - 1 }, [], none, none⟩
      else ⟨s, [], none, none⟩

/-- Successor state of a transition. -/
def step (s : SrvState) (e : Ev) : SrvState :=
  (stepFull s e).state

/-- Run a sequence of events from a state. -/
def run (s : SrvState) (evs : List Ev) : SrvState :=
  evs.foldl step s

/-! ### Facts about the proc-list helpers -/

theorem findProc_eq_some {id : String} {p : EProc} :
    ∀ {l : List EProc}, findProc id l = some p → p ∈ l ∧ p.id = id := by
  intro l
  induction l with
  | nil => intro h; simp [findProc] at h
  | cons q t ih =>
      intro h
      by_cases hq : q.id = id
      · simp only [findProc, hq, if_pos rfl] at h
        cases h
        exact ⟨List.mem_cons_self _ _, hq⟩
      · simp only [findProc, hq, if_false] at h
        obtain ⟨hm, hid⟩ := ih h
        exact ⟨List.mem_cons_of_mem _ hm, hid⟩

theorem removeProc_sublist (id : String) :
    ∀ l : List EProc, (removeProc id l).Sublist l := by
  intro l
  induction l with
  | nil => simp [removeProc]
  | cons q t ih =>
      by_cases hq : q.id = id
      · simp [removeProc, hq, List.sublist_cons_self]
      · simpa [removeProc, hq] using ih.cons₂ q

theorem length_removeProc {id : String} {p : EProc} :
    ∀ {l : List EProc}, findProc id l = some p →
      (removeProc id l).length + 1 = l.length := by
  intro l
  induction l with
  | nil => intro h; simp [findProc] at h
  | cons q t ih =>
      intro h
      by_cases hq : q.id = id
      · simp [removeProc, hq]
      · simp only [findProc, hq, if_false] at h
        simp [removeProc, hq, ih h]

theorem removeProc_no_match {id : String} :
    ∀ {l : List EProc}, l.countP (fun q => q.id == id) ≤ 1 →
      ∀ q ∈ removeProc id l, q.id ≠ id := by
  intro l
  induction l with
  | nil => intro _ q hq; simp [removeProc] at hq
  | cons p t ih =>
      intro hc q hq
      by_cases hp : p.id = id
      · simp only [removeProc, hp, if_pos rfl] at hq
        rw [List.countP_cons] at hc
        simp only [hp, beq_self_eq_true, if_true] at hc
        have ht : t.countP (fun q => q.id == id) = 0 := by omega
        intro hqid
        have := List.countP_eq_zero.mp ht q hq
        simp [hqid] at this
      · simp only [removeProc, hp, if_false] at hq
        rcases List.mem_cons.mp hq with h | h
        · exact h ▸ hp
        · refine ih ?_ q h
          rw [List.countP_cons] at hc
          omega

theorem length_setReleased (id : String) :
    ∀ l : List EProc, (setReleased id l).length = l.length := by
  intro l
  induction l with
  | nil => simp [setReleased]
  | cons p t ih =>
      by_cases hp : p.id = id
      · simp [setReleased, hp]
      · simp [setReleased, hp, ih]

theorem countP_setReleased (id x : String) :
    ∀ l : List EProc,
      (setReleased id l).countP (fun q => q.id == x) =
        l.countP (fun q => q.id == x) := by
  intro l
  induction l with
  | nil => simp [setReleased]
  | cons p t ih =>
      by_cases hp : p.id = id
      · simp [setReleased, hp, List.countP_cons, ih]
      · simp [setReleased, hp, List.countP_cons, ih]

theorem setReleased_mem {id : String} :
    ∀ {l : List EProc}, ∀ q ∈ setReleased id l,
      q ∈ l ∨ (q.id = id ∧ q.released = true) := by
  intro l
  induction l with
  | nil => intro q hq; simp [setReleased] at hq
  | cons p t ih =>
      intro q hq
      by_cases hp : p.id = id
      · simp only [setReleased, hp, if_pos rfl] at hq
        rcases List.mem_cons.mp hq with h | h
        · rw [h]; exact Or.inr ⟨rfl, rfl⟩
        · exact Or.inl (List.mem_cons_of_mem _ h)
      · simp only [setReleased, hp, if_false] at hq
        rcases List.mem_cons.mp hq with h | h
        · exact Or.inl (h ▸ List.mem_cons_self _ _)
        · rcases ih q h with h' | h'
          · exact Or.inl (List.mem_cons_of_mem _ h')
          · exact Or.inr h'

theorem setReleased_unreleased {id : String} :
    ∀ {l : List EProc}, l.countP (fun q => q.id == id) ≤ 1 →
      ∀ q ∈ setReleased id l, q.released = false → q ∈ l ∧ q.id ≠ id := by
  intro l
  induction l with
  | nil => intro _ q hq; simp [setReleased] at hq
  | cons p t ih =>
      intro hc q hq hrel
      by_cases hp : p.id = id
      · simp only [setReleased, hp, if_pos rfl] at hq
        rcases List.mem_cons.mp hq with h | h
        · rw [h] at hrel; simp at hrel
        · rw [List.countP_cons] at hc
          simp only [hp, beq_self_eq_true, if_true] at hc
          have ht : t.countP (fun q => q.id == id) = 0 := by omega
          have hne : q.id ≠ id := by
            intro hqid
            have := List.countP_eq_zero.mp ht q h
            simp [hqid] at this
          exact ⟨List.mem_cons_of_mem _ h, hne⟩
      · simp only [setReleased, hp, if_false] at hq
        rcases List.mem_cons.mp hq with h | h
        · exact ⟨h ▸ List.mem_cons_self _ _, h ▸ hp⟩
        · rw [List.countP_cons] at hc
          obtain ⟨hm, hne⟩ := ih (by omega) q h hrel
          exact ⟨List.mem_cons_of_mem _ hm, hne⟩

theorem findProc_countP_pos {id : String} {p : EProc} {l : List EProc}
    (h : findProc id l = some p) :
    0 < l.countP (fun q => q.id == id) := by
  obtain ⟨hm, hid⟩ := findProc_eq_some h
  exact List.countP_pos_iff.mpr ⟨p, hm, by simp [hid]⟩

/-! ### The inductive invariant -/

/-- Number of gate acquisitions currently held for `id`: probing jobs
plus encoder subprocesses with that id whose `error` has not fired. -/
def perIdLive (s : SrvState) (id : String) : Nat :=
  s.prespawn.count id + s.procs.countP (fun p => p.id == id)

/-- The inductive invariant of the server state.  There is no lower
bound on the counters: the error-then-close double decrement of a spawn
failure drives them below zero (see the C2 theorem). -/
structure Inv (s : SrvState) : Prop where
  hmax : s.runningHls ≤ maxHls
  hper : ∀ id, perIdLive s id ≤ 1
  hpre : ∀ id ∈ s.prespawn, id ∈ s.registry
  hunrel : ∀ p ∈ s.procs, p.released = false → p.id ∈ s.registry
  hrelm : ∀ p ∈ s.procs, p.released = true → p.id ∈ s.manifest
  hnodup : s.registry.Nodup
  htmax : s.runningThumb ≤ maxThumb

theorem inv_init : Inv stInit := by
  constructor <;> simp [stInit, maxHls, maxThumb, perIdLive]

theorem inv_reqManifest (s : SrvState) (hs : Inv s) (id : String) :
    Inv (step s (.reqManifest id)) := by
  obtain ⟨hmax, hper, hpre, hunrel, hrelm, hnodup, htmax⟩ := hs
  simp only [step, stepFull]
  by_cases h1 : id ∈ s.registry
  · simpa [h1] using ⟨hmax, hper, hpre, hunrel, hrelm, hnodup, htmax⟩
  by_cases h2 : id ∈ s.manifest
  · simpa [h1, h2] using ⟨hmax, hper, hpre, hunrel, hrelm, hnodup, htmax⟩
  by_cases h3 : maxHls ≤ s.runningHls
  · simpa [h1, h2, h3] using ⟨hmax, hper, hpre, hunrel, hrelm, hnodup, htmax⟩
  simp only [h1, h2, h3, if_false, if_neg]
  have hpre0 : id ∉ s.prespawn := fun hm => h1 (hpre id hm)
  have hproc0 : s.procs.countP (fun p => p.id == id) = 0 := by
    refine List.countP_eq_zero.mpr ?_
    intro p hp hbeq
    have hpid : p.id = id := by simpa using hbeq
    cases hb : p.released
    · exact h1 (hpid ▸ hunrel p hp hb)
    · exact h2 (hpid ▸ hrelm p hp hb)
  refine ⟨?_, ?_, ?_, ?_, ?_, ?_, ?_⟩
  · simp only []
    omega
  · intro x
    by_cases hx : x = id
    · subst hx
      simp only [perIdLive, List.count_cons_self, hproc0]
      have : s.prespawn.count x = 0 := List.count_eq_zero.mpr hpre0
      omega
    · have := hper x
      simpa [perIdLive, List.count_cons_of_ne hx] using this
  · intro x hx
    rcases List.mem_cons.mp hx with h | h
    · exact h ▸ List.mem_cons_self _ _
    · exact List.mem_cons_of_mem _ (hpre x h)
  · intro p hp hb
    exact List.mem_cons_of_mem _ (hunrel p hp hb)
  · exact hrelm
  · exact List.nodup_cons.mpr ⟨h1, hnodup⟩
  · exact htmax

theorem inv_probeDone (s : SrvState) (hs : Inv s) (id : String) :
    Inv (step s (.probeDone id)) := by
  obtain ⟨hmax, hper, hpre, hunrel, hrelm, hnodup, htmax⟩ := hs
  simp only [step, stepFull]
  by_cases h1 : id ∈ s.prespawn
  · simp only [h1, if_pos]
    refine ⟨hmax, ?_, ?_, ?_, ?_, hnodup, htmax⟩
    · intro x
      have hx := hper x
      by_cases hxid : x = id
      · subst hxid
        have hc1 : (s.prespawn.erase x).count x = s.prespawn.count x - 1 :=
          List.count_erase_self x s.prespawn
        have hc2 : 0 < s.prespawn.count x := List.count_pos_iff.mpr h1
        simp only [perIdLive, List.countP_cons, beq_self_eq_true, if_true,
          hc1] at hx ⊢
        omega
      · have hc1 : (s.prespawn.erase id).count x = s.prespawn.count x :=
          List.count_erase_of_ne hxid s.prespawn
        have hne : ((EProc.mk id false).id == x) = false := by
          simp only [beq_eq_false_iff_ne]
          exact fun h => hxid h.symm
        simp only [perIdLive, List.countP_cons, hne, if_false, hc1] at hx ⊢
        simpa using hx
    · intro x hx
      exact hpre x (List.mem_of_mem_erase hx)
    · intro p hp hb
      rcases List.mem_cons.mp hp with h | h
      · rw [h]
        exact hpre id h1
      · exact hunrel p h hb
    · intro p hp hb
      rcases List.mem_cons.mp hp with h | h
      · rw [h] at hb
        simp at hb
      · exact hrelm p h hb
  · simpa [h1] using ⟨hmax, hper, hpre, hunrel, hrelm, hnodup, htmax⟩

theorem inv_manifestAppears (s : SrvState) (hs : Inv s) (id : String) :
    Inv (step s (.manifestAppears id)) := by
  obtain ⟨hmax, hper, hpre, hunrel, hrelm, hnodup, htmax⟩ := hs
  simp only [step, stepFull]
  split
  · refine ⟨hmax, hper, hpre, hunrel, ?_, hnodup, htmax⟩
    intro p hp hb
    exact List.mem_cons_of_mem _ (hrelm p hp hb)
  · exact ⟨hmax, hper, hpre, hunrel, hrelm, hnodup, htmax⟩

theorem inv_pollTick (s : SrvState) (hs : Inv s) (id : String) :
    Inv (step s (.pollTick id)) := by
  obtain ⟨hmax, hper, hpre, hunrel, hrelm, hnodup, htmax⟩ := hs
  simp only [step, stepFull]
  cases hf : findProc id s.procs with
  | none => exact ⟨hmax, hper, hpre, hunrel, hrelm, hnodup, htmax⟩
  | some p =>
      by_cases hc : p.released = false ∧ id ∈ s.manifest
      · simp only [hc, if_pos, and_self]
        have hcount : s.procs.countP (fun q => q.id == id) ≤ 1 := by
          have := hper id
          simp only [perIdLive] at this
          omega
        have hprenot : id ∉ s.prespawn := by
          intro hm
          have h1 : 0 < s.prespawn.count id := List.count_pos_iff.mpr hm
          have h2 : 0 < s.procs.countP (fun q => q.id == id) :=
            findProc_countP_pos hf
          have := hper id
          simp only [perIdLive] at this
          omega
        refine ⟨hmax, ?_, ?_, ?_, ?_, hnodup.erase id, htmax⟩
        · intro x
          have := hper x
          simpa [perIdLive, countP_setReleased] using this
        · intro x hx
          have hne : x ≠ id := fun h => hprenot (h ▸ hx)
          exact (List.mem_erase_of_ne hne).mpr (hpre x hx)
        · intro q hq hb
          obtain ⟨hql, hqne⟩ := setReleased_unreleased hcount q hq hb
          exact (List.mem_erase_of_ne hqne).mpr (hunrel q hql hb)
        · intro q hq hb
          rcases setReleased_mem q hq with h | h
          · exact hrelm q h hb
          · exact h.1 ▸ hc.2
      · simp only [hc, if_false, if_neg]
        exact ⟨hmax, hper, hpre, hunrel, hrelm, hnodup, htmax⟩

theorem inv_procClose (s : SrvState) (hs : Inv s) (id : String) (code : Int) :
    Inv (step s (.procClose id code)) := by
  obtain ⟨hmax, hper, hpre, hunrel, hrelm, hnodup, htmax⟩ := hs
  simp only [step, stepFull]
  cases hf : findProc id s.procs with
  | none => exact ⟨hmax, hper, hpre, hunrel, hrelm, hnodup, htmax⟩
  | some p =>
      have hcount : s.procs.countP (fun q => q.id == id) ≤ 1 := by
        have := hper id
        simp only [perIdLive] at this
        omega
      have hprenot : id ∉ s.prespawn := by
        intro hm
        have h1 : 0 < s.prespawn.count id := List.count_pos_iff.mpr hm
        have h2 : 0 < s.procs.countP (fun q => q.id == id) :=
          findProc_countP_pos hf
        have := hper id
        simp only [perIdLive] at this
        omega
      have hbase :
          ∀ reg2 : List String, s.prespawn ⊆ reg2 →
            (∀ q ∈ removeProc id s.procs, q.released = false → q.id ∈ reg2) →
            reg2.Nodup →
            Inv ⟨reg2, s.prespawn, removeProc id s.procs, s.manifest,
              s.runningHls - 1, s.runningThumb, s.thumbPre, s.thumbProcs,
              s.hlsErrored, s.thumbErrored⟩ := by
        intro reg2 hreg hq hnd
        refine ⟨by simp only []; omega, ?_, ?_, hq, ?_, hnd, htmax⟩
        · intro x
          have := hper x
          have hsub := (removeProc_sublist id s.procs).countP_le
            (fun q => q.id == x)
          simp only [perIdLive] at this ⊢
          omega
        · exact fun x hx => hreg hx
        · intro q hq' hb
          exact hrelm q ((removeProc_sublist id s.procs).subset hq') hb
      have herase :
          ∀ q ∈ removeProc id s.procs, q.released = false →
            q.id ∈ s.registry.erase id := by
        intro q hq hb
        have hne := removeProc_no_match hcount q hq
        exact (List.mem_erase_of_ne hne).mpr
          (hunrel q ((removeProc_sublist id s.procs).subset hq) hb)
      have hpresub : s.prespawn ⊆ s.registry.erase id := by
        intro x hx
        have hne : x ≠ id := fun h => hprenot (h ▸ hx)
        exact (List.mem_erase_of_ne hne).mpr (hpre x hx)
      have hkeep :
          ∀ q ∈ removeProc id s.procs, q.released = false →
            q.id ∈ s.registry := by
        intro q hq hb
        exact hunrel q ((removeProc_sublist id s.procs).subset hq) hb
      by_cases hr : p.released
      · simpa [hr] using hbase s.registry (fun x hx => hpre x hx) hkeep hnodup
      by_cases hm : id ∈ s.manifest
      · simpa [hr, hm] using
          hbase (s.registry.erase id) hpresub herase (hnodup.erase id)
      by_cases h0 : code = 0
      · simpa [hr, hm, h0] using hbase s.registry (fun x hx => hpre x hx)
          hkeep hnodup
      · simpa [hr, hm, h0] using
          hbase (s.registry.erase id) hpresub herase (hnodup.erase id)

theorem inv_procError (s : SrvState) (hs : Inv s) (id : String) :
    Inv (step s (.procError id)) := by
  obtain ⟨hmax, hper, hpre, hunrel, hrelm, hnodup, htmax⟩ := hs
  simp only [step, stepFull]
  cases hf : findProc id s.procs with
  | none => exact ⟨hmax, hper, hpre, hunrel, hrelm, hnodup, htmax⟩
  | some p =>
      have hcount : s.procs.countP (fun q => q.id == id) ≤ 1 := by
        have := hper id
        simp only [perIdLive] at this
        omega
      have hprenot : id ∉ s.prespawn := by
        intro hm
        have h1 : 0 < s.prespawn.count id := List.count_pos_iff.mpr hm
        have h2 : 0 < s.procs.countP (fun q => q.id == id) :=
          findProc_countP_pos hf
        have := hper id
        simp only [perIdLive] at this
        omega
      have hbase :
          ∀ reg2 : List String, s.prespawn ⊆ reg2 →
            (∀ q ∈ removeProc id s.procs, q.released = false → q.id ∈ reg2) →
            reg2.Nodup →
            Inv ⟨reg2, s.prespawn, removeProc id s.procs, s.manifest,
              s.runningHls - 1, s.runningThumb, s.thumbPre, s.thumbProcs,
              s.hlsErrored + 1, s.thumbErrored⟩ := by
        intro reg2 hreg hq hnd
        refine ⟨by simp only []; omega, ?_, ?_, hq, ?_, hnd, htmax⟩
        · intro x
          have := hper x
          have hsub := (removeProc_sublist id s.procs).countP_le
            (fun q => q.id == x)
          simp only [perIdLive] at this ⊢
          omega
        · exact fun x hx => hreg hx
        · intro q hq' hb
          exact hrelm q ((removeProc_sublist id s.procs).subset hq') hb
      have herase :
          ∀ q ∈ removeProc id s.procs, q.released = false →
            q.id ∈ s.registry.erase id := by
        intro q hq hb
        have hne := removeProc_no_match hcount q hq
        exact (List.mem_erase_of_ne hne).mpr
          (hunrel q ((removeProc_sublist id s.procs).subset hq) hb)
      have hpresub : s.prespawn ⊆ s.registry.erase id := by
        intro x hx
        have hne : x ≠ id := fun h => hprenot (h ▸ hx)
        exact (List.mem_erase_of_ne hne).mpr (hpre x hx)
      have hkeep :
          ∀ q ∈ removeProc id s.procs, q.released = false →
            q.id ∈ s.registry := by
        intro q hq hb
        exact hunrel q ((removeProc_sublist id s.procs).subset hq) hb
      by_cases hr : p.released
      · simpa [hr] using hbase s.registry (fun x hx => hpre x hx) hkeep hnodup
      · simpa [hr] using
          hbase (s.registry.erase id) hpresub herase (hnodup.erase id)

theorem inv_procErrClose (s : SrvState) (hs : Inv s) :
    Inv (step s .procErrClose) := by
  obtain ⟨hmax, hper, hpre, hunrel, hrelm, hnodup, htmax⟩ := hs
  simp only [step, stepFull]
  by_cases h1 : 0 < s.hlsErrored
  · simp only [h1, if_pos]
    refine ⟨?_, hper, hpre, hunrel, hrelm, hnodup, htmax⟩
    show s.runningHls - 1 ≤ maxHls
    omega
  · simpa [h1] using ⟨hmax, hper, hpre, hunrel, hrelm, hnodup, htmax⟩

theorem inv_reqThumb (s : SrvState) (hs : Inv s) (found cached : Bool) :
    Inv (step s (.reqThumb found cached)) := by
  obtain ⟨hmax, hper, hpre, hunrel, hrelm, hnodup, htmax⟩ := hs
  cases found with
  | false =>
      simpa [step, stepFull] using
        ⟨hmax, hper, hpre, hunrel, hrelm, hnodup, htmax⟩
  | true =>
      cases cached with
      | true =>
          simpa [step, stepFull] using
            ⟨hmax, hper, hpre, hunrel, hrelm, hnodup, htmax⟩
      | false =>
          by_cases h3 : maxThumb ≤ s.runningThumb
          · simpa [step, stepFull, h3] using
              ⟨hmax, hper, hpre, hunrel, hrelm, hnodup, htmax⟩
          · simp only [step, stepFull, if_neg h3]
            simp only [Bool.true_eq_false, if_false, if_true, if_neg h3]
            refine ⟨hmax, hper, hpre, hunrel, hrelm, hnodup, ?_⟩
            show s.runningThumb + 1 ≤ maxThumb
            omega

theorem inv_thumbProbeDone (s : SrvState) (hs : Inv s) :
    Inv (step s .thumbProbeDone) := by
  obtain ⟨hmax, hper, hpre, hunrel, hrelm, hnodup, htmax⟩ := hs
  simp only [step, stepFull]
  by_cases h1 : 0 < s.thumbPre
  · simp only [h1, if_pos]
    exact ⟨hmax, hper, hpre, hunrel, hrelm, hnodup, htmax⟩
  · simpa [h1] using ⟨hmax, hper, hpre, hunrel, hrelm, hnodup, htmax⟩

theorem inv_thumbClose (s : SrvState) (hs : Inv s) (ok : Bool) :
    Inv (step s (.thumbClose ok)) := by
  obtain ⟨hmax, hper, hpre, hunrel, hrelm, hnodup, htmax⟩ := hs
  simp only [step, stepFull]
  by_cases h1 : 0 < s.thumbProcs
  · simp only [h1, if_pos]
    refine ⟨hmax, hper, hpre, hunrel, hrelm, hnodup, ?_⟩
    show s.runningThumb - 1 ≤ maxThumb
    omega
  · simpa [h1] using ⟨hmax, hper, hpre, hunrel, hrelm, hnodup, htmax⟩

theorem inv_thumbError (s : SrvState) (hs : Inv s) :
    Inv (step s .thumbError) := by
  obtain ⟨hmax, hper, hpre, hunrel, hrelm, hnodup, htmax⟩ := hs
  simp only [step, stepFull]
  by_cases h1 : 0 < s.thumbProcs
  · simp only [h1, if_pos]
    refine ⟨hmax, hper, hpre, hunrel, hrelm, hnodup, ?_⟩
    show s.runningThumb - 1 ≤ maxThumb
    omega
  · simpa [h1] using ⟨hmax, hper, hpre, hunrel, hrelm, hnodup, htmax⟩

theorem inv_thumbErrClose (s : SrvState) (hs : Inv s) :
    Inv (step s .thumbErrClose) := by
  obtain ⟨hmax, hper, hpre, hunrel, hrelm, hnodup, htmax⟩ := hs
  simp only [step, stepFull]
  by_cases h1 : 0 < s.thumbErrored
  · simp only [h1, if_pos]
    refine ⟨hmax, hper, hpre, hunrel, hrelm, hnodup, ?_⟩
    show s.runningThumb - 1 ≤ maxThumb
    omega
  · simpa [h1] using ⟨hmax, hper, hpre, hunrel, hrelm, hnodup, htmax⟩

/-- Every transition preserves the invariant. -/
theorem inv_step (s : SrvState) (hs : Inv s) (e : Ev) : Inv (step s e) := by
  cases e with
  | reqManifest id => exact inv_reqManifest s hs id
  | probeDone id => exact inv_probeDone s hs id
  | manifestAppears id => exact inv_manifestAppears s hs id
  | pollTick id => exact inv_pollTick s hs id
  | procClose id code => exact inv_procClose s hs id code
  | procError id => exact inv_procError s hs id
  | procErrClose => exact inv_procErrClose s hs
  | reqThumb found cached => exact inv_reqThumb s hs found cached
  | thumbProbeDone => exact inv_thumbProbeDone s hs
  | thumbClose ok => exact inv_thumbClose s hs ok
  | thumbError => exact inv_thumbError s hs
  | thumbErrClose => exact inv_thumbErrClose s hs

/-- Every state reachable from server start satisfies the invariant. -/
theorem inv_run (evs : List Ev) : Inv (run stInit evs) := by
  suffices h : ∀ s, Inv s → Inv (run s evs) from h stInit inv_init
  induction evs with
  | nil => exact fun s hs => hs
  | cons e t ih => exact fun s hs => ih (step s e) (inv_step s hs e)

/-! ## Auxiliary definitions and lemmas for the claim theorems -/

/-- HTTP status the manifest handler sends for each request result
(server.js lines 315-317 and 330-335): 202 for busy, otherwise the
manifest is eventually streamed with 200. -/
def manifestHttpStatus : ReqRes → Nat
  | .busy => 202
  | _ => 200

/-- A list whose match count is one and that contains a matching element
filters to exactly that element. -/
theorem filter_eq_singleton_of_countP_one {α : Type} (p : α → Bool)
    (v : α) :
    ∀ l : List α, l.countP p = 1 → v ∈ l → p v = true → l.filter p = [v] := by
  intro l
  induction l with
  | nil => intro _ hv; simp at hv
  | cons a t ih =>
      intro h1 hv hpv
      rw [List.countP_cons] at h1
      rcases List.mem_cons.mp hv with rfl | hvt
      · have ht : t.countP p = 0 := by
          simp only [hpv, if_true] at h1
          omega
        have hnone : ∀ x ∈ t, ¬ p x = true := List.countP_eq_zero.mp ht
        rw [List.filter_cons_of_pos hpv]
        have : t.filter p = [] := List.filter_eq_nil_iff.mpr hnone
        rw [this]
      · have hvp : 0 < t.countP p :=
          List.countP_pos_iff.mpr ⟨v, hvt, hpv⟩
        cases hpa : p a with
        | true =>
            exfalso
            rw [hpa] at h1
            simp only [if_true] at h1
            omega
        | false =>
            rw [List.filter_cons_of_neg (by simp [hpa])]
            refine ih ?_ hvt hpv
            rw [hpa] at h1
            simpa using h1

/-- Demo catalog entry: an asset named `foo.mp4`. -/
def demoA : VideoAsset := ⟨"foo.mp4".data, "x/foo.mp4".data⟩

/-- Demo catalog entry: an asset named `bar.mp4` inside a directory named
`foo`. -/
def demoB : VideoAsset := ⟨"bar.mp4".data, "foo/bar.mp4".data⟩

/-! ## The claims -/

/-- C1.  Single-flight per asset id: at every state reachable from server
start, at most one encoder subprocess (or gate-holding probe phase)
exists per id; and a manifest request for an id that is present in the
job registry attaches to the existing job — the state is unchanged (no
new job entry, no gate change), no subprocess is spawned, and the caller
receives the registered job's own promise (`attached`), hence the same
eventual outcome as every other waiter of that job. -/
theorem ensureHls_single_flight :
    (∀ evs : List Ev, ∀ id, perIdLive (run stInit evs) id ≤ 1) ∧
    (∀ s : SrvState, ∀ id, id ∈ s.registry →
      stepFull s (.reqManifest id) = ⟨s, [], some .attached, none⟩) := by
  constructor
  · intro evs id
    exact (inv_run evs).hper id
  · intro s id h
    simp [stepFull, h]

/-- Witness for C1 at a concrete trace and state. -/
theorem ensureHls_single_flight_witness :
    perIdLive (run stInit [.reqManifest "v", .reqManifest "v",
      .probeDone "v", .probeDone "v"]) "v" ≤ 1 ∧
    ("v" ∈ (run stInit [.reqManifest "v"]).registry ∧
      stepFull (run stInit [.reqManifest "v"]) (.reqManifest "v") =
        ⟨run stInit [.reqManifest "v"], [], some .attached, none⟩) :=
  ⟨ensureHls_single_flight.1 [.reqManifest "v", .reqManifest "v",
      .probeDone "v", .probeDone "v"] "v",
    by decide,
    ensureHls_single_flight.2 (run stInit [.reqManifest "v"]) "v" (by decide)⟩

/-- C2, code_bug.  The claim (and spec) requires each counter to be
decremented exactly once per subprocess termination, so that it stays
between 0 and its capacity.  The capacity half holds: increments are
gated, so the counters never exceed `MAX_HLS` / `MAX_THUMB` at any
reachable state.  The nonnegativity half is false in the source: on a
spawn failure Node fires `error` and then also `close`, both handlers
decrement (`runningHls--` at lines 256 and 270, `runningThumb--` at
lines 478 and 488), so one increment is paired with two decrements and
the counter goes negative — after a single spawn-failed encode from the
start state, `runningHls = -1`, and likewise `runningThumb = -1` after a
single spawn-failed thumbnail. -/
theorem gate_negative_on_spawn_failure :
    (∀ evs : List Ev, (run stInit evs).runningHls ≤ maxHls ∧
      (run stInit evs).runningThumb ≤ maxThumb) ∧
    (run stInit [.reqManifest "v", .probeDone "v", .procError "v",
      .procErrClose]).runningHls = -1 ∧
    (run stInit [.reqThumb true false, .thumbProbeDone, .thumbError,
      .thumbErrClose]).runningThumb = -1 := by
  refine ⟨fun evs => ⟨(inv_run evs).hmax, (inv_run evs).htmax⟩, ?_, ?_⟩
  · decide
  · decide

/-- C3.  The path-containment check of `safeAbsFromRel` is a plain string
prefix test against the root, with no trailing separator: the relative
path `../videosEvil/a.mp4` resolves to `/srv/videosEvil/a.mp4`, which
lies outside the root `/srv/videos` yet is accepted (and, in `absFromId`,
yields a usable filesystem path whenever that file exists).  This
contradicts the claim that every path resolving outside the root is
rejected. -/
theorem safeAbsFromRel_escape :
    safeAbsFromRel "/srv/videos".data "../videosEvil/a.mp4".data =
      some "/srv/videosEvil/a.mp4".data ∧
    withinRoot "/srv/videos".data "/srv/videosEvil/a.mp4".data = false ∧
    absFromIdRel (fun p => p == "/srv/videosEvil/a.mp4".data)
      "/srv/videos".data "../videosEvil/a.mp4".data =
      some "/srv/videosEvil/a.mp4".data := by
  decide

/-- C4.  Cache short-circuit: when the manifest file for `id` already
exists on disk, a manifest request spawns nothing and leaves the encode
gate untouched; if moreover no job for `id` is registered (the
`Unstarted` case of the spec), it returns `ready` immediately with the
whole state unchanged. -/
theorem cache_short_circuit (s : SrvState) (id : String)
    (hm : id ∈ s.manifest) :
    (stepFull s (.reqManifest id)).effects = [] ∧
    (stepFull s (.reqManifest id)).state.runningHls = s.runningHls ∧
    (id ∉ s.registry →
      stepFull s (.reqManifest id) = ⟨s, [], some .ready, none⟩) := by
  by_cases hr : id ∈ s.registry
  · simp [stepFull, hr, hm]
  · simp [stepFull, hr, hm]

/-- Witness for C4 at a concrete reachable state with a cached manifest. -/
theorem cache_short_circuit_witness :
    "v" ∈ (run stInit [.reqManifest "v", .probeDone "v",
      .manifestAppears "v", .pollTick "v", .procClose "v" 0]).manifest ∧
    stepFull (run stInit [.reqManifest "v", .probeDone "v",
        .manifestAppears "v", .pollTick "v", .procClose "v" 0])
      (.reqManifest "v") =
      ⟨run stInit [.reqManifest "v", .probeDone "v", .manifestAppears "v",
        .pollTick "v", .procClose "v" 0], [], some .ready, none⟩ :=
  ⟨by decide,
    (cache_short_circuit _ "v" (by decide)).2.2 (by decide)⟩

/-- C5, counterexample.  The claim says a job settles as success when the
encoder exits with code zero; but when the encoder of a pending job
closes with code 0 and no manifest was ever produced, the close handler
(server.js lines 255-267) neither resolves nor rejects: no outcome is
reported and the job entry stays in the registry forever (settlement
always removes the entry, so the job has not settled). -/
theorem hls_exit0_never_settles :
    (stepFull (run stInit [.reqManifest "v", .probeDone "v"])
        (.procClose "v" 0)).settle ≠ some Outcome.success ∧
    (stepFull (run stInit [.reqManifest "v", .probeDone "v"])
        (.procClose "v" 0)).settle = none ∧
    (stepFull (run stInit [.reqManifest "v", .probeDone "v"])
        (.procClose "v" 0)).state.registry = ["v"] := by
  decide

/-- C5, amended.  Settlement on a terminal subprocess event: if the job
was already released (manifest appeared earlier), the event reports
nothing new; otherwise a `close` settles success exactly when the
manifest file is present (regardless of exit code), settles failure
exactly when the exit code is non-zero and no manifest exists, and a
zero exit code with no manifest settles nothing (the job stays pending
forever); a spawn `error` on an unreleased job settles failure.  The
failure outcome is what the waiting manifest request observes. -/
theorem hls_settlement (s : SrvState) (id : String) (code : Int) (p : EProc)
    (hf : findProc id s.procs = some p) :
    (stepFull s (.procClose id code)).settle =
      (if p.released then none
       else if id ∈ s.manifest then some Outcome.success
       else if code = 0 then none else some Outcome.failure) ∧
    (stepFull s (.procError id)).settle =
      (if p.released then none else some Outcome.failure) := by
  by_cases hr : p.released
  · simp [stepFull, hf, hr]
  · by_cases hm : id ∈ s.manifest
    · simp [stepFull, hf, hr, hm]
    · by_cases h0 : code = 0
      · simp [stepFull, hf, hr, hm, h0]
      · simp [stepFull, hf, hr, hm, h0]

/-- Witness for C5 (amended) at a concrete failing close and spawn error. -/
theorem hls_settlement_witness :
    findProc "v" (run stInit [.reqManifest "v", .probeDone "v"]).procs =
      some ⟨"v", false⟩ ∧
    (stepFull (run stInit [.reqManifest "v", .probeDone "v"])
        (.procClose "v" 2)).settle = some Outcome.failure ∧
    (stepFull (run stInit [.reqManifest "v", .probeDone "v"])
        (.procError "v")).settle = some Outcome.failure := by
  refine ⟨by decide, ?_, ?_⟩
  · rw [(hls_settlement (run stInit [.reqManifest "v", .probeDone "v"])
      "v" 2 ⟨"v", false⟩ (by decide)).1]
    decide
  · rw [(hls_settlement (run stInit [.reqManifest "v", .probeDone "v"])
      "v" 2 ⟨"v", false⟩ (by decide)).2]
    decide

/-- C6.  Busy load-shedding: a manifest request for an id with no
registered job and no cached manifest, arriving while the encode counter
is at (or beyond) capacity, yields the busy result — sent as HTTP 202 —
with no subprocess spawned, no gate change, and no job entry created
(the state is exactly unchanged). -/
theorem busy_no_job (s : SrvState) (id : String)
    (h1 : id ∉ s.registry) (h2 : id ∉ s.manifest)
    (h3 : maxHls ≤ s.runningHls) :
    stepFull s (.reqManifest id) = ⟨s, [], some .busy, none⟩ ∧
    manifestHttpStatus .busy = 202 := by
  constructor
  · simp [stepFull, h1, h2, h3]
  · rfl

/-- Witness for C6 at a concrete state with the gate exhausted. -/
theorem busy_no_job_witness :
    ("v" ∉ (⟨[], [], [], [], 10000, 0, 0, 0, 0, 0⟩ : SrvState).registry) ∧
    stepFull (⟨[], [], [], [], 10000, 0, 0, 0, 0, 0⟩ : SrvState)
      (.reqManifest "v") =
      ⟨⟨[], [], [], [], 10000, 0, 0, 0, 0, 0⟩, [], some .busy, none⟩ :=
  ⟨by decide,
    (busy_no_job ⟨[], [], [], [], 10000, 0, 0, 0, 0, 0⟩ "v" (by decide) (by decide)
      (by decide)).1⟩

/-- C7.  Round trip of the opaque-id codec: decoding the base64url
encoding of any byte sequence (the UTF-8 bytes of a relative path, as
`Buffer.from(rel)` produces them) returns exactly that sequence. -/
theorem id_codec_roundtrip (bs : List Nat) (h : ∀ b ∈ bs, b < 256) :
    b64decode (b64encode bs) = bs :=
  b64_roundtrip bs h

/-- Witness for C7 on the bytes of `Show/a.mkv`. -/
theorem id_codec_roundtrip_witness :
    (∀ b ∈ [83, 104, 111, 119, 47, 97, 46, 109, 107, 118], b < 256) ∧
    b64decode (b64encode [83, 104, 111, 119, 47, 97, 46, 109, 107, 118]) =
      [83, 104, 111, 119, 47, 97, 46, 109, 107, 118] :=
  ⟨by decide,
    id_codec_roundtrip [83, 104, 111, 119, 47, 97, 46, 109, 107, 118]
      (by decide)⟩

/-- C8, counterexample.  The claim says every malformed id decodes to
the null marker.  But Node's base64url decoder never throws and never
yields null for a string: the malformed id `"!!!"` decodes to the empty
byte string (`some []`), not `none`; and the partially malformed id
`"ab!cd"` decodes to a non-empty garbage path, so the caller's `!rel`
guard does not map it to 400 at all. -/
theorem idToRelPath_malformed_not_null :
    idToRelPath "!!!" = some [] ∧
    idToRelPath "!!!" ≠ none ∧
    videoIdRejected "ab!cd" = false := by
  decide

/-- C8, amended.  Decode fails softly in the sense that it is total — no
exception escapes and the result is always a byte string, never the null
marker; characters outside the alphabet are ignored.  The caller's 400
guard (`!rel`) fires exactly on ids whose lenient decode is empty. -/
theorem idToRelPath_soft (id : String) :
    idToRelPath id = some (b64decode id.data) ∧
    (videoIdRejected id = true ↔ b64decode id.data = []) := by
  refine ⟨rfl, ?_⟩
  simp [videoIdRejected, idToRelPath, List.isEmpty_iff]

/-- C9, counterexample.  The query `foo` occurs in exactly one asset
name (`foo.mp4`), yet the listing contains two assets, because the
filter (server.js line 99) matches against `name + " " + relPath` and
`foo` also occurs in the other asset's relative path. -/
theorem api_videos_name_match_not_exact :
    ([demoA, demoB].countP
      (fun v => jsIncludes "foo".data (jsLower v.name)) = 1) ∧
    apiVideos [demoA, demoB] "foo".data = [demoA, demoB] := by
  decide

/-- C9, amended.  For a query that is non-empty after trimming and,
lowercased, occurs in exactly one asset's `name + " " + relPath` string
(lowercased), the listing is exactly that asset; for the empty query the
listing is the whole index truncated to the 300-result cap. -/
theorem api_videos_search (index : List VideoAsset) (q : List Char)
    (v : VideoAsset) :
    (index.countP (assetMatches (jsLower (jsTrim q))) = 1 →
      v ∈ index → assetMatches (jsLower (jsTrim q)) v = true →
      (jsLower (jsTrim q)).isEmpty = false →
      apiVideos index q = [v]) ∧
    apiVideos index [] = index.take 300 := by
  constructor
  · intro h1 hv hm hq
    unfold apiVideos
    rw [if_neg (by simp [hq])]
    rw [filter_eq_singleton_of_countP_one _ v index h1 hv hm]
    rfl
  · rfl

/-- Witness for C9 (amended): the query `bar` matches exactly one asset
and the listing is exactly that asset. -/
theorem api_videos_search_witness :
    ([demoA, demoB].countP (assetMatches (jsLower (jsTrim "bar".data))) = 1) ∧
    demoB ∈ [demoA, demoB] ∧
    assetMatches (jsLower (jsTrim "bar".data)) demoB = true ∧
    apiVideos [demoA, demoB] "bar".data = [demoB] :=
  ⟨by decide, by decide, by decide,
    (api_videos_search [demoA, demoB] "bar".data demoB).1 (by decide)
      (by decide) (by decide) (by decide)⟩

/-- C10.  The segment endpoint filters only on the `.ts` suffix and
serves exactly `path.join(CACHE_ROOT, id, seg)` with no containment
check, so a `seg` parameter containing `..` traversal segments selects a
file outside the per-asset directory and outside the cache root:
with cache root `/cache`, the pair `(vid, ../../etc/passwd.ts)` serves
`/etc/passwd.ts`. -/
theorem seg_endpoint_no_containment (root id seg : List Char)
    (h : (['.', 't', 's'] : List Char).isSuffixOf seg = true) :
    segServedPath root id seg = some (pathJoin root [id, seg]) ∧
    (segServedPath "/cache".data "vid".data "../../etc/passwd.ts".data =
        some "/etc/passwd.ts".data ∧
      withinRoot "/cache".data "/etc/passwd.ts".data = false) := by
  refine ⟨?_, by decide, by decide⟩
  simp [segServedPath, h]

/-- Witness for C10 on an ordinary segment name. -/
theorem seg_endpoint_witness :
    (['.', 't', 's'] : List Char).isSuffixOf "seg00001.ts".data = true ∧
    segServedPath "/cache".data "vid".data "seg00001.ts".data =
      some (pathJoin "/cache".data ["vid".data, "seg00001.ts".data]) :=
  ⟨by decide,
    (seg_endpoint_no_containment "/cache".data "vid".data "seg00001.ts".data
      (by decide)).1⟩

end HlsPlayer
